import Mathlib

/-!
Verification of the glv / pygit_viewer commit-history viewer.

Two source layers are embedded:

* `Line` — the graph classifier of `src/pygit_viewer/line.py`
  (`to_commit`, `_calculate_level`, `Repo.walker`).  The Python subclass
  hierarchy (`Commit` / `InitialCommit` / `LastCommit` / `Merge` /
  `Octopus` / `Subtree`, with `Foldable` the superclass of the last
  three) is embedded as one record carrying a `kind` tag.

* `Glv` — the fold engine, lazy content provider, and search of
  `src/glv/ui/history.py` (`History._fold`, `History._unfold`,
  `History.fill_up`, `History.search`, `History.apply_search`).
  The collaborators `glv/commit.py` and the repository walker are not
  part of the sources; where their behaviour matters they are modelled
  from the specification and marked as such.
-/

namespace Line

/-- The runtime classes of `pygit_viewer/line.py` as a tag.  `Regular`
stands for the plain `Commit` class, `LastCommit` is the boundary case
produced when parent resolution raises. -/
inductive Kind where
  | InitialCommit
  | LastCommit
  | Regular
  | Merge
  | Octopus
  | Subtree
deriving DecidableEq

/-- Embeds `isinstance(x, Foldable)`: `Merge`, `Octopus` and `Subtree` subclass
`Foldable` in `line.py`. -/
def Kind.isFoldable : Kind → Bool
  | .Merge => true
  | .Octopus => true
  | .Subtree => true
  | _ => false

/-- The wrapper `Commit` object of `line.py`, reduced to the fields the
classifier writes: the oid, the class that was instantiated, and the
`level` passed to the constructor. -/
structure PCommit where
  oid : Nat
  kind : Kind
  level : Nat
deriving DecidableEq

/-- A raw `pygit2.Commit`: its id and its parent ids.  Accessing
`.parents` can raise on a shallow/grafted boundary; `none` models that
the access raises. -/
structure GitCommit where
  id : Nat
  parents : Option (List Nat)
deriving DecidableEq

/-- Embeds `_calculate_level` of `line.py`:
`level = 1; if parent is not None: level = parent.level;
if isinstance(parent, Foldable): level += 1`. -/
def _calculate_level (parent : Option PCommit) : Nat :=
  match parent with
  | none => 1
  | some p => if p.kind.isFoldable then p.level + 1 else p.level

/-- Embeds `to_commit` of `line.py`.  `mergeBase` is the git-access
collaborator `Repo.merge_base`, returning the common ancestor of two
parent ids or `none`.  The `try`/`except` around the `.parents` access
is the `g.parents = none` branch. -/
def to_commit (mergeBase : Nat → Nat → Option Nat) (git_commit : GitCommit)
    (parent : Option PCommit) : PCommit :=
  let level := _calculate_level parent
  match git_commit.parents with
  | none => ⟨git_commit.id, .LastCommit, level⟩
  | some ps =>
    match ps with
    | [] => ⟨git_commit.id, .InitialCommit, level⟩
    | [_] => ⟨git_commit.id, .Regular, level⟩
    | [p0, p1] =>
      if mergeBase p0 p1 = none then ⟨git_commit.id, .Subtree, level⟩
      else ⟨git_commit.id, .Merge, level⟩
    | _ => ⟨git_commit.id, .Octopus, level⟩

/-- Embeds `Repo.walker` of `line.py`: the first raw commit is
classified against the `parent` argument (`None` for the top-level walk,
the foldable commit for a side-branch walk), and every later raw commit
is classified against the previously yielded record. -/
def walker (mergeBase : Nat → Nat → Option Nat) (parent : Option PCommit) :
    List GitCommit → List PCommit
  | [] => []
  | g :: gs =>
    let c := to_commit mergeBase g parent
    c :: walker mergeBase (some c) gs

end Line

namespace Glv

/-- Modelled from the spec: the Commit record of `glv/commit.py` (the
module itself is not among the sources; `history.py` reads the fields
`level`, `short_id`, `subject`, `author_name`, `branches` and
`is_merge` from it).  Top-level commits carry `level == 0` per the
specification's data model. -/
structure Commit where
  oid : Nat
  level : Nat
  short_id : String
  subject : String
  author_name : String
  branches : List String
  is_merge : Bool
deriving DecidableEq

/-- Embeds `list.insert(i, x)` of Python: insert before position `i`, or append
when `i` is past the end. -/
def pyInsert (i : Nat) (x : Commit) (cs : List Commit) : List Commit :=
  cs.take i ++ x :: cs.drop i

/-- Embeds the loop of `History._fold`: `snapshot` is the slice copy
`self.commit_list[pos:]` made when the `for` loop starts, `cs` the live
list; each matching step is `del self.commit_list[pos]`, the first
non-matching element breaks the loop. -/
def foldLoop (lvl : Nat) (snapshot : List Commit) (cs : List Commit) (pos : Nat) :
    List Commit :=
  match snapshot with
  | [] => cs
  | cur :: rest =>
    if lvl < cur.level then foldLoop lvl rest (cs.eraseIdx pos) pos else cs

/-- Embeds `History._fold(pos, commit)` restricted to its effect on
`commit_list` (the parallel `log_entry_list` mirrors it). -/
def fold_run (pos : Nat) (commit : Commit) (cs : List Commit) : List Commit :=
  foldLoop commit.level (cs.drop pos) cs pos

/-- Embeds the loop of `History._unfold`: `index` starts at 1 and each
child yielded by `child_history` is inserted at `line_number + index`;
the final `index` is what `line_count` is incremented by. -/
def unfoldLoop (line_number : Nat) (cs : List Commit) (index : Nat) :
    List Commit → List Commit × Nat
  | [] => (cs, index)
  | ch :: rest =>
    unfoldLoop line_number (pyInsert (line_number + index) ch cs) (index + 1) rest

/-- Embeds `History._unfold(line_number, commit)` on `commit_list`:
`children` stands for the sequence produced by `child_history` (from
`glv/commit.py`, not among the sources; the spec guarantees every
yielded record has level strictly greater than the unfolded commit).
Returns the new list and the final `index`. -/
def unfold_run (line_number : Nat) (children : List Commit) (cs : List Commit) :
    List Commit × Nat :=
  unfoldLoop line_number cs 1 children

/-- The error raised by `History.fill_up` on a non-positive amount
(`raise ValueError(...)`, the spec's `InvalidArgument` condition). -/
inductive FillErr where
  | invalidArgument
deriving DecidableEq

/-- Embeds `History.fill_up` on `commit_list`.  `stream` is the full
top-level first-parent sequence of the repository; modelled from the
spec, `Repo.iter_commits(rev_range, skip, max_count, paths)` (not among
the sources) yields `(stream.drop skip).take max_count`.  The skip is
`len([x for x in self.commit_list if x.level == 0])`; every yielded
commit is appended and the count fetched is returned. -/
def fill_up_run (stream : List Commit) (cs : List Commit) (amount : Int) :
    Except FillErr (List Commit × Nat) :=
  if amount ≤ 0 then .error .invalidArgument
  else
    let skip := (cs.filter (fun x => x.level == 0)).length
    let commits := (stream.drop skip).take amount.toNat
    .ok (cs ++ commits, commits.length)

/-- Python's `needle in haystack` on strings: case-sensitive substring
test, decided by checking `needle` as a prefix of every suffix. -/
def strContains (haystack needle : String) : Bool :=
  (List.range (haystack.data.length + 1)).any
    (fun i => needle.data.isPrefixOf (haystack.data.drop i))

/-- The substring relation `strContains` decides, stated abstractly:
the haystack splits as `pre ++ needle ++ post`. -/
def IsSubstr (needle haystack : String) : Prop :=
  ∃ pre post : List Char, haystack.data = pre ++ needle.data ++ post

/-- The per-candidate match test of the forward branch of
`History.search`: needle in short id, subject, author name, or any
branch label (all case-sensitive substring tests). -/
def matches_forward (needle : String) (c : Commit) : Bool :=
  strContains c.short_id needle || strContains c.subject needle ||
    strContains c.author_name needle ||
    c.branches.any (fun haystack => strContains haystack needle)

/-- The per-candidate match test of the backward branch of
`History.search`: needle in short id, subject, or author name — the
backward branch does not consult `commit.branches`. -/
def matches_backward (needle : String) (c : Commit) : Bool :=
  strContains c.short_id needle || strContains c.subject needle ||
    strContains c.author_name needle

/-- The two values of `SearchDirection` passed to `History.search`. -/
inductive SDirection where
  | forward
  | backward
deriving DecidableEq

/-- A placeholder `Commit`; the loops below only read it on index
accesses that the Python code would have raised on. -/
def dummyCommit : Commit :=
  ⟨0, 0, "", "", "", [], false⟩

/-- Embeds the forward `while True` loop of `History.search`.  A `none`
lookup is the `IndexError` branch: `fill_up(screen_height)` runs; a zero
return breaks the loop (cursor untouched), otherwise the same iteration
re-reads `commit_list[index]` and continues.  A `ValueError` escaping
`fill_up` kills the search thread, leaving cursor and list as they
were.  `fuel` only bounds the recursion; callers pass enough for the
loop to reach its own exit. -/
def searchFwdLoop (stream : List Commit) (screenHeight : Int) (needle : String)
    (y : Int) : Nat → List Commit → Nat → Int × List Commit
  | 0, cs, _ => (y, cs)
  | fuel + 1, cs, index =>
    match cs[index]? with
    | some commit =>
      if matches_forward needle commit then ((index : Int), cs)
      else searchFwdLoop stream screenHeight needle y fuel cs (index + 1)
    | none =>
      match fill_up_run stream cs screenHeight with
      | .error _ => (y, cs)
      | .ok (cs2, n) =>
        if n = 0 then (y, cs)
        else
          match cs2[index]? with
          | some commit =>
            if matches_forward needle commit then ((index : Int), cs2)
            else searchFwdLoop stream screenHeight needle y fuel cs2 (index + 1)
          | none => (y, cs2)

/-- Embeds the backward `while index >= 0` loop of `History.search`.
The running index is an `Int`, exactly as in Python, where it reaches
`-1` on exhaustion.  `fuel` only bounds the recursion. -/
def searchBackLoop (needle : String) (cs : List Commit) :
    Int → Nat → Option Int
  | _, 0 => none
  | index, fuel + 1 =>
    if 0 ≤ index then
      if matches_backward needle (cs.getD index.toNat dummyCommit) then some index
      else searchBackLoop needle cs (index - 1) fuel
    else none

/-- Embeds `History.search` restricted to its observable effect: the
final cursor row and the final `commit_list`.  `y` is the cursor row on
entry (`self.cursor_position.y`), `includeCur` the
`include_current_position` flag.  On a match the code repositions the
cursor to the loop index (which then equals `new_position`); on
exhaustion `new_position == y` and the cursor is left alone. -/
def search (stream : List Commit) (screenHeight : Int) (needle : String)
    (direction : SDirection) (includeCur : Bool) (cs : List Commit) (y : Nat) :
    Int × List Commit :=
  match direction with
  | .forward =>
    let index := if !includeCur then y + 1 else y
    searchFwdLoop stream screenHeight needle y
      (cs.length + stream.length + 2) cs index
  | .backward =>
    let index : Int := if !includeCur && 0 < y then (y : Int) - 1 else (y : Int)
    match searchBackLoop needle cs index (index + 1).toNat with
    | some i => (i, cs)
    | none => ((y : Int), cs)

/-- The cancellation mechanisms §4.5 of the spec distinguishes. -/
inductive CancelMechanism where
  | forcedStop
  | cooperativeFlag
deriving DecidableEq

/-- Embeds the cancellation path of `History.apply_search`: when a
previous search thread `is_alive()`, the code calls the private CPython
internal `Thread._stop()` — forced termination, with any exception
swallowed — and then starts the new thread immediately, without joining
the old one and without any cancellation flag (`History.search` checks
none between match attempts). -/
def apply_search_cancellation (prevAlive : Bool) : Option CancelMechanism :=
  if prevAlive then some .forcedStop else none

/-- The mutable viewer state `History.fill_up` / `_fold` / `_unfold`
operate on: the materialized sequence and `line_count`. -/
structure HistoryState where
  commit_list : List Commit
  line_count : Nat
deriving DecidableEq

/-- Embeds `History._fold` at state level: `line_count` is not touched. -/
def stateFold (st : HistoryState) (pos : Nat) (commit : Commit) : HistoryState :=
  { st with commit_list := fold_run pos commit st.commit_list }

/-- Embeds `History._unfold` at state level: inserts the children and runs
`self.line_count += index`, where `index` ends at one more than the
number of inserted records. -/
def stateUnfold (st : HistoryState) (line_number : Nat) (children : List Commit) :
    HistoryState :=
  let r := unfold_run line_number children st.commit_list
  { commit_list := r.1, line_count := st.line_count + r.2 }

/-- Embeds `History.fill_up` at state level: `line_count` is not touched. -/
def stateFillUp (stream : List Commit) (st : HistoryState) (amount : Int) :
    Except FillErr (HistoryState × Nat) :=
  match fill_up_run stream st.commit_list amount with
  | .error e => .error e
  | .ok (cs, n) => .ok ({ st with commit_list := cs }, n)

/-- Embeds the tail of `History.__init__`: `line_count` is initialized
to `self._repo.count_commits(...)` (the repository's total commit count
for the revision), the lists start empty, and `fill_up(screen_height)`
runs once. -/
def stateInit (total : Nat) (stream : List Commit) (screenHeight : Int) :
    Except FillErr HistoryState :=
  match stateFillUp stream ⟨[], total⟩ screenHeight with
  | .error e => .error e
  | .ok (st, _) => .ok st

/-- The skip `fill_up` computes:
`len([x for x in self.commit_list if x.level == 0])`. -/
def skipOf (cs : List Commit) : Nat :=
  (cs.filter (fun x => x.level == 0)).length

/-- The records a successful `fill_up(amount)` fetches from the
top-level stream. -/
def fetchedOf (stream cs : List Commit) (amount : Int) : List Commit :=
  (stream.drop (skipOf cs)).take amount.toNat

/-- Sample data for concrete evaluations: a top-level merge commit. -/
def sampleMerge : Commit :=
  ⟨0, 0, "aaaaaaa", "Merge branch feature", "alice", [], true⟩

/-- Sample data: a top-level regular commit. -/
def sampleRoot : Commit :=
  ⟨1, 0, "bbbbbbb", "Initial import", "bob", [], false⟩

/-- Sample data: a side-branch commit one level down. -/
def sampleChild : Commit :=
  ⟨2, 1, "ccccccc", "Implement feature", "carol", [], false⟩

/-- Sample data: a commit whose only occurrence of the text
`feature` is in a branch label. -/
def searchSample : Commit :=
  ⟨3, 0, "1234567", "Fix parsing", "alice", ["feature-x"], false⟩

end Glv

/-! ## Helper lemmas -/

/-- The result kind aside, `to_commit` always stores the level computed
by `_calculate_level` from the parent context. -/
theorem Line.to_commit_level (mb : Nat → Nat → Option Nat) (g : Line.GitCommit)
    (parent : Option Line.PCommit) :
    (Line.to_commit mb g parent).level = Line._calculate_level parent := by
  unfold Line.to_commit
  rcases g.parents with _ | (_ | ⟨a, _ | ⟨b, _ | ⟨c, t⟩⟩⟩) <;> dsimp only <;>
    first
      | rfl
      | (split <;> rfl)

/-- C1: For every commit classified by the Graph Classifier, `kind` is
assigned by this precedence: 0 parents gives `Initial`; parent metadata
that cannot be resolved gives `Boundary` (the `LastCommit` class;
resolution failure is recovered, never fatal); exactly 1 parent gives
`Regular`; exactly 2 parents gives `Subtree` iff the merge-base of
parent 0 and parent 1 is none and `Merge` otherwise; more than 2
parents gives `Octopus`. -/
theorem graph_classifier_kind_precedence (mb : Nat → Nat → Option Nat)
    (g : Line.GitCommit) (parent : Option Line.PCommit) :
    (g.parents = none → (Line.to_commit mb g parent).kind = .LastCommit) ∧
    (g.parents = some [] → (Line.to_commit mb g parent).kind = .InitialCommit) ∧
    (∀ p, g.parents = some [p] → (Line.to_commit mb g parent).kind = .Regular) ∧
    (∀ p0 p1, g.parents = some [p0, p1] →
      (((Line.to_commit mb g parent).kind = .Subtree ↔ mb p0 p1 = none) ∧
        ((Line.to_commit mb g parent).kind = .Merge ↔ (mb p0 p1).isSome))) ∧
    (∀ ps, g.parents = some ps → 2 < ps.length →
      (Line.to_commit mb g parent).kind = .Octopus) := by
  refine ⟨?_, ?_, ?_, ?_, ?_⟩
  · intro h; simp [Line.to_commit, h]
  · intro h; simp [Line.to_commit, h]
  · intro p h; simp [Line.to_commit, h]
  · intro p0 p1 h
    cases hmb : mb p0 p1 <;>
      simp [Line.to_commit, h, hmb]
  · intro ps h hlen
    rcases ps with _ | ⟨a, _ | ⟨b, _ | ⟨c, t⟩⟩⟩ <;> simp at hlen <;>
      simp [Line.to_commit, h]

/-- Concrete instance of C1: a three-parent raw commit is classified
as `Octopus`. -/
theorem graph_classifier_kind_precedence_witness :
    (Line.to_commit (fun _ _ => none) ⟨5, some [1, 2, 3]⟩ none).kind = .Octopus :=
  (graph_classifier_kind_precedence (fun _ _ => none) ⟨5, some [1, 2, 3]⟩ none).2.2.2.2
    [1, 2, 3] rfl (by decide)

/-- C2 counterexample: a commit classified with no parent context gets
`level == 1`, not `level == 0` as claimed — `_calculate_level` and
`to_commit` both start from `level = 1`. -/
theorem commit_level_base_counterexample :
    (Line.to_commit (fun _ _ => none) ⟨0, some []⟩ none).level ≠ 0 := by
  decide

/-- C2 (amended): `level` equals 1 when there is no parent context;
otherwise it equals the parent context's level, plus 1 exactly when the
parent context is a foldable kind.  The walker threads each yielded
record as the next one's parent context, so the first commit of the
top-level walk has level 1, and the first commit yielded while
unfolding a foldable commit at level L has level L+1. -/
theorem commit_level_rule (mb : Nat → Nat → Option Nat) (g : Line.GitCommit)
    (p : Line.PCommit) (gs : List Line.GitCommit) :
    ((Line.to_commit mb g none).level = 1) ∧
    ((Line.to_commit mb g (some p)).level =
      if p.kind.isFoldable then p.level + 1 else p.level) ∧
    ((Line.walker mb none (g :: gs)).head?.map Line.PCommit.level = some 1) ∧
    (p.kind.isFoldable = true →
      (Line.walker mb (some p) (g :: gs)).head?.map Line.PCommit.level =
        some (p.level + 1)) := by
  refine ⟨?_, ?_, ?_, ?_⟩
  · rw [Line.to_commit_level]; rfl
  · rw [Line.to_commit_level]; rfl
  · simp [Line.walker, Line.to_commit_level, Line._calculate_level]
  · intro hf
    simp [Line.walker, Line.to_commit_level, Line._calculate_level, hf]

/-- Concrete instance of C2 (amended): the first record of a
side-branch walk below a `Merge` at level 1 carries level 2. -/
theorem commit_level_rule_witness :
    (Line.walker (fun _ _ => none) (some ⟨9, .Merge, 1⟩)
        [⟨0, some [1]⟩]).head?.map Line.PCommit.level = some 2 :=
  (commit_level_rule (fun _ _ => none) ⟨0, some [1]⟩ ⟨9, .Merge, 1⟩ []).2.2.2
    (by decide)

/-- Deleting at the join point of `pre ++ x :: t` removes `x`. -/
theorem Glv.eraseIdx_append_cons (pre : List Glv.Commit) (x : Glv.Commit)
    (t : List Glv.Commit) : (pre ++ x :: t).eraseIdx pre.length = pre ++ t := by
  induction pre with
  | nil => rfl
  | cons a rest ih => simpa [List.eraseIdx] using ih

/-- Running the `_fold` loop with the slice copy as snapshot deletes
exactly the leading run of records above `lvl`. -/
theorem Glv.foldLoop_dropWhile (lvl : Nat) :
    ∀ (suffix pre : List Glv.Commit),
      Glv.foldLoop lvl suffix (pre ++ suffix) pre.length =
        pre ++ suffix.dropWhile (fun cur => lvl < cur.level) := by
  intro suffix
  induction suffix with
  | nil => intro pre; simp [Glv.foldLoop]
  | cons cur rest ih =>
    intro pre
    by_cases h : lvl < cur.level
    · rw [Glv.foldLoop, if_pos h, Glv.eraseIdx_append_cons, ih,
        List.dropWhile_cons_of_pos (by simpa using h)]
    · rw [Glv.foldLoop, if_neg h,
        List.dropWhile_cons_of_neg (by simpa using h)]

/-- Taking one past a `pyInsert` position recovers the prefix plus the
inserted element. -/
theorem Glv.take_pyInsert (x : Glv.Commit) :
    ∀ (n : Nat) (cs : List Glv.Commit),
      (Glv.pyInsert n x cs).take (n + 1) = cs.take n ++ [x] := by
  intro n
  induction n with
  | zero => intro cs; simp [Glv.pyInsert]
  | succ m ih =>
    intro cs
    cases cs with
    | nil => simp [Glv.pyInsert]
    | cons a t => simpa [Glv.pyInsert] using ih t

/-- Dropping one past a `pyInsert` position recovers the suffix. -/
theorem Glv.drop_pyInsert (x : Glv.Commit) :
    ∀ (n : Nat) (cs : List Glv.Commit),
      (Glv.pyInsert n x cs).drop (n + 1) = cs.drop n := by
  intro n
  induction n with
  | zero => intro cs; simp [Glv.pyInsert]
  | succ m ih =>
    intro cs
    cases cs with
    | nil => simp [Glv.pyInsert]
    | cons a t => simpa [Glv.pyInsert] using ih t

/-- Shape of the `_unfold` loop: the children end up as one contiguous
block after position `line_number + index - 1`, and the final `index`
counts one more than the insertions. -/
theorem Glv.unfoldLoop_shape :
    ∀ (children : List Glv.Commit) (ln idx : Nat) (cs : List Glv.Commit),
      Glv.unfoldLoop ln cs idx children =
        (cs.take (ln + idx) ++ children ++ cs.drop (ln + idx),
          idx + children.length) := by
  intro children
  induction children with
  | nil => intro ln idx cs; simp [Glv.unfoldLoop]
  | cons ch rest ih =>
    intro ln idx cs
    rw [Glv.unfoldLoop, ih]
    have h1 := Glv.take_pyInsert ch (ln + idx) cs
    have h2 := Glv.drop_pyInsert ch (ln + idx) cs
    rw [show ln + (idx + 1) = (ln + idx) + 1 by omega, h1, h2]
    simp [List.append_assoc]
    omega

/-- C4: For every index `i` holding an unfolded foldable commit,
folding at `i` (which runs `_fold(i+1, commit_list[i])`) removes
exactly the contiguous run of records starting at `i+1` whose level is
strictly greater than `commit_list[i].level`, stopping at the first
record whose level is `<=` that level or at the end of the sequence;
the comparison is against the folding commit's own level. -/
theorem fold_removes_nested_run (cs : List Glv.Commit) (i : Nat)
    (hi : i < cs.length) :
    Glv.fold_run (i + 1) (cs.get ⟨i, hi⟩) cs =
      cs.take (i + 1) ++ (cs.drop (i + 1)).dropWhile
        (fun cur => (cs.get ⟨i, hi⟩).level < cur.level) := by
  have hlen : (cs.take (i + 1)).length = i + 1 := by
    rw [List.length_take]; omega
  unfold Glv.fold_run
  calc Glv.foldLoop (cs.get ⟨i, hi⟩).level (cs.drop (i + 1)) cs (i + 1)
      = Glv.foldLoop (cs.get ⟨i, hi⟩).level (cs.drop (i + 1))
          (cs.take (i + 1) ++ cs.drop (i + 1)) ((cs.take (i + 1)).length) := by
        rw [List.take_append_drop, hlen]
    _ = cs.take (i + 1) ++ (cs.drop (i + 1)).dropWhile
          (fun cur => (cs.get ⟨i, hi⟩).level < cur.level) :=
        Glv.foldLoop_dropWhile _ _ _

/-- Concrete instance of C4: folding the merge at index 0 removes its
level-1 child and keeps the level-0 record after it. -/
theorem fold_removes_nested_run_witness :
    Glv.fold_run 1
        (List.get [Glv.sampleMerge, Glv.sampleChild, Glv.sampleRoot] ⟨0, by decide⟩)
        [Glv.sampleMerge, Glv.sampleChild, Glv.sampleRoot] =
      List.take 1 [Glv.sampleMerge, Glv.sampleChild, Glv.sampleRoot] ++
        (List.drop 1 [Glv.sampleMerge, Glv.sampleChild, Glv.sampleRoot]).dropWhile
          (fun cur =>
            (List.get [Glv.sampleMerge, Glv.sampleChild, Glv.sampleRoot]
              ⟨0, by decide⟩).level < cur.level) :=
  fold_removes_nested_run [Glv.sampleMerge, Glv.sampleChild, Glv.sampleRoot] 0
    (by decide)

/-- Core of the fold/unfold round trip, over an arbitrary decomposition
`pre ++ children ++ rest` of the post-unfold sequence. -/
theorem Glv.roundtrip_core (c : Glv.Commit) (pre children rest : List Glv.Commit)
    (hch : ∀ x ∈ children, c.level < x.level)
    (hnext : ∀ y ∈ rest.head?, y.level ≤ c.level) :
    Glv.fold_run pre.length c (pre ++ children ++ rest) = pre ++ rest := by
  unfold Glv.fold_run
  rw [List.append_assoc, List.drop_left, Glv.foldLoop_dropWhile]
  congr 1
  rw [List.dropWhile_append]
  have hq : children.dropWhile (fun cur => c.level < cur.level) = [] :=
    List.dropWhile_eq_nil_iff.2 (fun x hx => by simpa using hch x hx)
  rw [hq]
  cases hr : rest with
  | nil => simp
  | cons y t =>
    have hy : y.level ≤ c.level := hnext y (by rw [hr]; rfl)
    simp only [List.isEmpty_nil, if_true]
    rw [List.dropWhile_cons_of_neg (by simpa using Nat.not_lt.2 hy)]

/-- C3: For every materialized sequence and every index `i` holding a
folded foldable commit (so the record after `i`, if any, is not nested
below it), unfolding at `i` and then folding at the same index restores
the materialized sequence to its pre-unfold length and content.  The
children inserted by `child_history` all carry levels strictly greater
than the unfolded commit's level (guaranteed by the spec for the
side-branch walk). -/
theorem unfold_fold_roundtrip (cs children : List Glv.Commit) (i : Nat)
    (hi : i < cs.length)
    (hch : ∀ x ∈ children, (cs.get ⟨i, hi⟩).level < x.level)
    (hnext : ∀ y ∈ (cs.drop (i + 1)).head?, y.level ≤ (cs.get ⟨i, hi⟩).level) :
    Glv.fold_run (i + 1) (cs.get ⟨i, hi⟩) (Glv.unfold_run i children cs).1 = cs := by
  have hshape :
      (Glv.unfold_run i children cs).1 =
        cs.take (i + 1) ++ children ++ cs.drop (i + 1) := by
    unfold Glv.unfold_run
    rw [Glv.unfoldLoop_shape]
  have hlen : (cs.take (i + 1)).length = i + 1 := by
    rw [List.length_take]; omega
  have hcore := Glv.roundtrip_core (cs.get ⟨i, hi⟩) (cs.take (i + 1)) children
    (cs.drop (i + 1)) hch hnext
  rw [hlen, List.take_append_drop] at hcore
  rw [hshape]
  exact hcore

/-- Concrete instance of C3: unfolding the merge at index 0 inserts its
child, folding at the same index restores the original two-record
sequence. -/
theorem unfold_fold_roundtrip_witness :
    Glv.fold_run 1 (List.get [Glv.sampleMerge, Glv.sampleRoot] ⟨0, by decide⟩)
        (Glv.unfold_run 0 [Glv.sampleChild] [Glv.sampleMerge, Glv.sampleRoot]).1 =
      [Glv.sampleMerge, Glv.sampleRoot] :=
  unfold_fold_roundtrip [Glv.sampleMerge, Glv.sampleRoot] [Glv.sampleChild] 0
    (by decide) (by decide) (by decide)

/-- C5: For every `fill_up(amount)` with `amount > 0`, the skip passed
to the top-level walker equals the number of already-materialized
records with `level == 0`; each yielded record is appended at the end;
the return value is the count actually fetched, which at end of history
is less than `amount` and is returned without raising.  Under the
pagination invariant (the materialized level-0 records are exactly the
first `skip` records of the stream) and uniqueness of stream commits, a
commit already present at level 0 is never re-fetched. -/
theorem fill_up_skip_append_count (stream cs : List Glv.Commit) (amount : Int)
    (hpos : 0 < amount)
    (hinv : cs.filter (fun x => x.level == 0) = stream.take (Glv.skipOf cs))
    (hnd : stream.Nodup) :
    Glv.fill_up_run stream cs amount =
      .ok (cs ++ Glv.fetchedOf stream cs amount,
        (Glv.fetchedOf stream cs amount).length) ∧
    (∀ c ∈ Glv.fetchedOf stream cs amount, ¬(c ∈ cs ∧ c.level = 0)) ∧
    (stream.length - Glv.skipOf cs < amount.toNat →
      (Glv.fetchedOf stream cs amount).length < amount.toNat) := by
  refine ⟨?_, ?_, ?_⟩
  · rw [Glv.fill_up_run, if_neg (by omega)]
    rfl
  · intro c hc ⟨hmem, hlvl⟩
    have hfil : c ∈ cs.filter (fun x => x.level == 0) := by
      rw [List.mem_filter]
      exact ⟨hmem, by simp [hlvl]⟩
    have htake : c ∈ stream.take (Glv.skipOf cs) := by
      rw [← hinv]; exact hfil
    have hdrop : c ∈ stream.drop (Glv.skipOf cs) := by
      have : Glv.fetchedOf stream cs amount ⊆ stream.drop (Glv.skipOf cs) :=
        List.take_subset _ _
      exact this hc
    exact List.disjoint_take_drop hnd (Nat.le_refl _) htake hdrop
  · intro hshort
    rw [Glv.fetchedOf, List.length_take, List.length_drop]
    omega

/-- Concrete instance of C5: a two-commit history with one record
already materialized at level 0 skips it, fetches the one remaining
commit, and `fill_up(3)` returns 2 fetched total, here 1 < 3, without
raising. -/
theorem fill_up_skip_append_count_witness :
    Glv.fill_up_run [Glv.sampleMerge, Glv.sampleRoot] [Glv.sampleMerge] 3 =
      .ok ([Glv.sampleMerge] ++
          Glv.fetchedOf [Glv.sampleMerge, Glv.sampleRoot] [Glv.sampleMerge] 3,
        (Glv.fetchedOf [Glv.sampleMerge, Glv.sampleRoot] [Glv.sampleMerge] 3).length) ∧
    (∀ c ∈ Glv.fetchedOf [Glv.sampleMerge, Glv.sampleRoot] [Glv.sampleMerge] 3,
      ¬(c ∈ [Glv.sampleMerge] ∧ c.level = 0)) ∧
    ([Glv.sampleMerge, Glv.sampleRoot].length -
        Glv.skipOf [Glv.sampleMerge] < (3 : Int).toNat →
      (Glv.fetchedOf [Glv.sampleMerge, Glv.sampleRoot] [Glv.sampleMerge] 3).length <
        (3 : Int).toNat) :=
  fill_up_skip_append_count [Glv.sampleMerge, Glv.sampleRoot] [Glv.sampleMerge] 3
    (by decide) (by decide) (by decide)

/-- C9: For every `amount <= 0`, `fill_up(amount)` fails fast with the
`InvalidArgument` condition (the `ValueError` raise) and fetches
nothing, for every state of the materialized sequence. -/
theorem fill_up_nonpositive_invalid (stream cs : List Glv.Commit) (st : Glv.HistoryState)
    (amount : Int) (h : amount ≤ 0) :
    Glv.fill_up_run stream cs amount = .error .invalidArgument ∧
    Glv.stateFillUp stream st amount = .error .invalidArgument := by
  constructor
  · rw [Glv.fill_up_run, if_pos h]
  · rw [Glv.stateFillUp, Glv.fill_up_run, if_pos h]

/-- Concrete instance of C9: `fill_up(0)` errors out. -/
theorem fill_up_nonpositive_invalid_witness :
    Glv.fill_up_run [Glv.sampleRoot] [] 0 = .error .invalidArgument ∧
    Glv.stateFillUp [Glv.sampleRoot] ⟨[], 7⟩ 0 = .error .invalidArgument :=
  fill_up_nonpositive_invalid [Glv.sampleRoot] [] ⟨[], 7⟩ 0 (by decide)

/-- C10: `line_count` never decreases under any operation: it is
initialized from the repository's total commit count; `_fold` and
`fill_up` leave it unchanged (folding removes records without shrinking
`line_count`); and an `_unfold` inserting `k` records increases it by
exactly `k + 1` (the loop's `index` starts at 1). -/
theorem line_count_never_decreases :
    (∀ (total : Nat) (stream : List Glv.Commit) (sh : Int) (st : Glv.HistoryState),
      Glv.stateInit total stream sh = .ok st → st.line_count = total) ∧
    (∀ (st : Glv.HistoryState) (pos : Nat) (c : Glv.Commit),
      (Glv.stateFold st pos c).line_count = st.line_count) ∧
    (∀ (stream : List Glv.Commit) (st : Glv.HistoryState) (amount : Int)
        (st' : Glv.HistoryState) (n : Nat),
      Glv.stateFillUp stream st amount = .ok (st', n) →
      st'.line_count = st.line_count) ∧
    (∀ (st : Glv.HistoryState) (ln : Nat) (children : List Glv.Commit),
      (Glv.stateUnfold st ln children).line_count =
        st.line_count + children.length + 1) := by
  have hfill : ∀ (stream : List Glv.Commit) (st : Glv.HistoryState) (amount : Int)
      (st' : Glv.HistoryState) (n : Nat),
      Glv.stateFillUp stream st amount = .ok (st', n) →
      st'.line_count = st.line_count := by
    intro stream st amount st' n h
    rw [Glv.stateFillUp] at h
    rcases hres : Glv.fill_up_run stream st.commit_list amount with e | p
    · rw [hres] at h; exact absurd h (by simp)
    · rw [hres] at h
      cases h
      rfl
  refine ⟨?_, ?_, hfill, ?_⟩
  · intro total stream sh st h
    rw [Glv.stateInit] at h
    cases hres : Glv.stateFillUp stream ⟨[], total⟩ sh with
    | error e => rw [hres] at h; exact absurd h (by simp)
    | ok p =>
      rw [hres] at h
      cases h
      exact hfill stream ⟨[], total⟩ sh p.1 p.2 (by rw [hres])
  · intro st pos c
    rfl
  · intro st ln children
    rw [Glv.stateUnfold, Glv.unfold_run, Glv.unfoldLoop_shape]
    dsimp only
    omega

/-- Concrete instance of C10: a fresh state initialized with total 5
keeps `line_count = 5` after the initial fetch. -/
theorem line_count_never_decreases_witness :
    (Glv.HistoryState.mk [Glv.sampleRoot] 5).line_count = 5 :=
  line_count_never_decreases.1 5 [Glv.sampleRoot] 1 ⟨[Glv.sampleRoot], 5⟩ rfl

/-- The test `strContains` decides exactly the case-sensitive substring
relation. -/
theorem Glv.strContains_iff (haystack needle : String) :
    Glv.strContains haystack needle = true ↔ Glv.IsSubstr needle haystack := by
  rw [Glv.strContains, List.any_eq_true]
  constructor
  · rintro ⟨i, _, hpre⟩
    rw [ List.isPrefixOf_iff_prefix] at hpre
    obtain ⟨t, ht⟩ := hpre
    exact ⟨haystack.data.take i, t,
      by rw [List.append_assoc, ht, List.take_append_drop]⟩
  · rintro ⟨pre, post, hsplit⟩
    refine ⟨pre.length, ?_, ?_⟩
    · rw [List.mem_range]
      have hlen := congrArg List.length hsplit
      simp only [List.length_append] at hlen
      omega
    · rw [ List.isPrefixOf_iff_prefix]
      refine ⟨post, ?_⟩
      rw [hsplit, List.append_assoc, List.drop_left]

/-- C7 counterexample: `searchSample` contains the needle `feature`
only in a branch label; the forward match test accepts it but the
backward match test, which does not consult branch labels, rejects
it — so the claimed direction-independent predicate is false. -/
theorem backward_match_counterexample :
    Glv.matches_backward "feature" Glv.searchSample = false ∧
    Glv.matches_forward "feature" Glv.searchSample = true := by
  decide

/-- C7 (amended): a forward-search candidate matches iff the needle is
a case-sensitive substring of its short id, subject, author name, or
any branch label; a backward-search candidate matches iff the needle is
a case-sensitive substring of its short id, subject, or author name —
branch labels are not consulted in the backward direction. -/
theorem search_match_predicate (needle : String) (c : Glv.Commit) :
    (Glv.matches_forward needle c = true ↔
      (Glv.IsSubstr needle c.short_id ∨ Glv.IsSubstr needle c.subject ∨
        Glv.IsSubstr needle c.author_name ∨
        ∃ b ∈ c.branches, Glv.IsSubstr needle b)) ∧
    (Glv.matches_backward needle c = true ↔
      (Glv.IsSubstr needle c.short_id ∨ Glv.IsSubstr needle c.subject ∨
        Glv.IsSubstr needle c.author_name)) := by
  constructor
  · rw [Glv.matches_forward]
    simp only [Bool.or_eq_true, List.any_eq_true, Glv.strContains_iff]
    tauto
  · rw [Glv.matches_backward]
    simp only [Bool.or_eq_true, Glv.strContains_iff]
    tauto

/-- A `some` answer of the backward loop is a non-negative index, no
larger than the start, whose record passes the backward match test. -/
theorem Glv.searchBackLoop_sound (needle : String) (cs : List Glv.Commit) :
    ∀ (fuel : Nat) (index i : Int),
      Glv.searchBackLoop needle cs index fuel = some i →
      0 ≤ i ∧ i ≤ index ∧
        Glv.matches_backward needle (cs.getD i.toNat Glv.dummyCommit) = true := by
  intro fuel
  induction fuel with
  | zero =>
    intro index i h
    exact absurd h (by rw [Glv.searchBackLoop]; simp)
  | succ n ih =>
    intro index i h
    rw [Glv.searchBackLoop] at h
    by_cases h0 : 0 ≤ index
    · rw [if_pos h0] at h
      by_cases hm :
          Glv.matches_backward needle (cs.getD index.toNat Glv.dummyCommit) = true
      · rw [if_pos hm] at h
        cases h
        exact ⟨h0, le_refl _, hm⟩
      · rw [if_neg hm] at h
        obtain ⟨h1, h2, h3⟩ := ih (index - 1) i h
        exact ⟨h1, by omega, h3⟩
    · rw [if_neg h0] at h
      exact absurd h (by simp)

/-- C8: For every backward search, no lazy fetch is ever triggered (the
materialized sequence is returned unchanged) and the cursor is never
repositioned to a negative index: the scan starts at the cursor (minus
1 if the current position is excluded and the cursor is greater than 0)
and decreases toward 0, stopping there — the final cursor is either the
unchanged entry cursor or a matching index at or below the start. -/
theorem backward_search_no_fetch (stream : List Glv.Commit) (sh : Int)
    (needle : String) (inc : Bool) (cs : List Glv.Commit) (y : Nat) :
    ((Glv.search stream sh needle .backward inc cs y).2 = cs) ∧
    (0 ≤ (Glv.search stream sh needle .backward inc cs y).1) ∧
    ((Glv.search stream sh needle .backward inc cs y).1 = (y : Int) ∨
      ((Glv.search stream sh needle .backward inc cs y).1 ≤
          (if !inc && 0 < y then (y : Int) - 1 else (y : Int)) ∧
        Glv.matches_backward needle
          (cs.getD (Glv.search stream sh needle .backward inc cs y).1.toNat
            Glv.dummyCommit) = true)) := by
  have hmain : Glv.search stream sh needle .backward inc cs y =
      (match Glv.searchBackLoop needle cs
          (if !inc && 0 < y then (y : Int) - 1 else (y : Int))
          ((if !inc && 0 < y then (y : Int) - 1 else (y : Int)) + 1).toNat with
        | some i => (i, cs)
        | none => ((y : Int), cs)) := rfl
  rw [hmain]
  cases hres : Glv.searchBackLoop needle cs
      (if !inc && 0 < y then (y : Int) - 1 else (y : Int))
      ((if !inc && 0 < y then (y : Int) - 1 else (y : Int)) + 1).toNat with
  | none => exact ⟨rfl, by positivity, Or.inl rfl⟩
  | some i =>
    obtain ⟨h0, hle, hm⟩ := Glv.searchBackLoop_sound needle cs _ _ i hres
    exact ⟨rfl, h0, Or.inr ⟨hle, hm⟩⟩

/-- C6: the cancellation path `History.apply_search` actually takes
when a previous search thread is alive is forced termination
(`Thread._stop()`), not a cooperative flag. -/
theorem apply_search_forced_termination :
    Glv.apply_search_cancellation true = some Glv.CancelMechanism.forcedStop :=
  rfl
